import Mathlib

/-!
# FluxDB core — verification of the MemTable / WAL specification

A shallow embedding of the FluxDB key-value store core: the ordered in-memory
table (src/mem_table.rs), the write-ahead-log frame encoder (src/wal.rs), the
log-file iterator/decoder (src/wal_iterator.rs), the recovery coordinator
(src/wal.rs), the store facade (src/disk.rs) and the directory-listing helper
(src/utils.rs).  Byte strings are lists of naturals (each byte < 256 where it
matters), u64/u128 machine integers are naturals with explicit `% 2^w`
truncation at the encoding boundary, and fallible or panicking code is made
explicit with Option / Except / a dedicated panic-result type.
-/

namespace FluxDB

/-- Byte strings (keys, values, file contents): lists of naturals.
Lexicographic comparison on them is the derived linear order on lists. -/
abbrev Bytes := List Nat

/-- src/mem_table.rs: InMemoryRecord — an entry of the in-memory table. -/
structure InMemoryRecord where
  key : Bytes
  value : Option Bytes
  timestamp : Nat
  is_deleted : Bool
deriving DecidableEq, Repr, Inhabited

/-- src/mem_table.rs: InMemoryTable — ordered records plus running byte size. -/
structure InMemoryTable where
  records : List InMemoryRecord
  total_size : Nat
deriving DecidableEq, Repr

/-- Result of Rust slice::binary_search_by_key: Ok (index of hit) or
Err (insertion position). -/
inductive SearchResult where
  | found (index : Nat)
  | notFound (index : Nat)
deriving DecidableEq, Repr

namespace InMemoryTable

/-- src/mem_table.rs: InMemoryTable::new — the empty table. -/
def new : InMemoryTable := ⟨[], 0⟩

/-- src/mem_table.rs: InMemoryTable::find_key_position.  The source calls
binary_search_by_key on the (sorted) record vector; we model its documented
result — the index of the first record whose key is ≥ the probe, found/notFound
tagged by whether that record key equals the probe — by a linear scan, which
coincides with binary search on every sorted vector. -/
def find_key_position (recs : List InMemoryRecord) (key : Bytes) : SearchResult :=
  match recs with
  | [] => .notFound 0
  | r :: rest =>
    if key < r.key then .notFound 0
    else if key = r.key then .found 0
    else
      match find_key_position rest key with
      | .found i => .found (i + 1)
      | .notFound i => .notFound (i + 1)

/-- src/mem_table.rs: InMemoryTable::insert — replace-or-insert a live record,
adjusting total_size exactly as the source arithmetic does. -/
def insert (t : InMemoryTable) (key value : Bytes) (timestamp : Nat) : InMemoryTable :=
  let new_record : InMemoryRecord := ⟨key, some value, timestamp, false⟩
  match find_key_position t.records key with
  | .found index =>
    let existing := t.records.getD index default
    let new_total :=
      match existing.value with
      | some existing_value =>
        if value.length < existing_value.length then
          t.total_size - (existing_value.length - value.length)
        else
          t.total_size + (value.length - existing_value.length)
      | none => t.total_size + value.length
    ⟨t.records.set index new_record, new_total⟩
  | .notFound index =>
    ⟨List.insertIdx index new_record t.records, t.total_size + (key.length + value.length + 17)⟩

/-- src/mem_table.rs: InMemoryTable::remove — replace-or-insert a tombstone. -/
def remove (t : InMemoryTable) (key : Bytes) (timestamp : Nat) : InMemoryTable :=
  let tombstone_record : InMemoryRecord := ⟨key, none, timestamp, true⟩
  match find_key_position t.records key with
  | .found index =>
    let existing := t.records.getD index default
    let new_total :=
      match existing.value with
      | some existing_value => t.total_size - existing_value.length
      | none => t.total_size
    ⟨t.records.set index tombstone_record, new_total⟩
  | .notFound index =>
    ⟨List.insertIdx index tombstone_record t.records, t.total_size + (key.length + 17)⟩

/-- src/mem_table.rs: InMemoryTable::fetch. -/
def fetch (t : InMemoryTable) (key : Bytes) : Option InMemoryRecord :=
  match find_key_position t.records key with
  | .found index => some (t.records.getD index default)
  | .notFound _ => none

/-- src/mem_table.rs: InMemoryTable::record_count. -/
def record_count (t : InMemoryTable) : Nat := t.records.length

/-- src/mem_table.rs: InMemoryTable::current_size. -/
def current_size (t : InMemoryTable) : Nat := t.total_size

end InMemoryTable

/-- One mutation routed through the store: set(key, value) or delete(key),
with the wall-clock timestamp the store assigned to it. -/
inductive StoreOp where
  | setOp (key value : Bytes) (timestamp : Nat)
  | delOp (key : Bytes) (timestamp : Nat)
deriving DecidableEq, Repr

/-- Apply one store operation to the MemTable (the in-memory half of
Disk::set / Disk::delete in src/disk.rs). -/
def applyOp (t : InMemoryTable) : StoreOp → InMemoryTable
  | .setOp key value ts => t.insert key value ts
  | .delOp key ts => t.remove key ts

/-- The MemTable state reached from the empty table by a sequence of
set/delete operations. -/
def applyOps (ops : List StoreOp) : InMemoryTable :=
  ops.foldl applyOp InMemoryTable.new

/-- The common replace-or-insert shape of insert and remove, at the level of
the record list only. -/
def upsert (recs : List InMemoryRecord) (key : Bytes) (nr : InMemoryRecord) :
    List InMemoryRecord :=
  match InMemoryTable.find_key_position recs key with
  | .found index => recs.set index nr
  | .notFound index => List.insertIdx index nr recs

theorem insert_records (t : InMemoryTable) (key value : Bytes) (ts : Nat) :
    (t.insert key value ts).records = upsert t.records key ⟨key, some value, ts, false⟩ := by
  unfold InMemoryTable.insert upsert
  cases InMemoryTable.find_key_position t.records key <;> simp

theorem remove_records (t : InMemoryTable) (key : Bytes) (ts : Nat) :
    (t.remove key ts).records = upsert t.records key ⟨key, none, ts, true⟩ := by
  unfold InMemoryTable.remove upsert
  cases InMemoryTable.find_key_position t.records key <;> simp

theorem upsert_nil (key : Bytes) (nr : InMemoryRecord) : upsert [] key nr = [nr] := rfl

theorem find_key_position_cons (r : InMemoryRecord) (rest : List InMemoryRecord)
    (key : Bytes) :
    InMemoryTable.find_key_position (r :: rest) key =
      if key < r.key then .notFound 0
      else if key = r.key then .found 0
      else
        match InMemoryTable.find_key_position rest key with
        | .found i => .found (i + 1)
        | .notFound i => .notFound (i + 1) := rfl

theorem upsert_cons (r : InMemoryRecord) (rest : List InMemoryRecord) (key : Bytes)
    (nr : InMemoryRecord) :
    upsert (r :: rest) key nr =
      if key < r.key then nr :: r :: rest
      else if key = r.key then nr :: rest
      else r :: upsert rest key nr := by
  by_cases h1 : key < r.key
  · simp only [upsert, find_key_position_cons, h1, if_true]
    simp
  · by_cases h2 : key = r.key
    · simp only [upsert, find_key_position_cons, h1, h2, if_false, if_true]
      simp
    · rw [if_neg h1, if_neg h2]
      unfold upsert
      rw [find_key_position_cons, if_neg h1, if_neg h2]
      cases h : InMemoryTable.find_key_position rest key <;>
        simp [List.insertIdx_succ_cons]

theorem mem_upsert {x : InMemoryRecord} {recs : List InMemoryRecord} {key : Bytes}
    {nr : InMemoryRecord} (h : x ∈ upsert recs key nr) : x = nr ∨ x ∈ recs := by
  induction recs with
  | nil => simp [upsert_nil] at h; simp [h]
  | cons r rest ih =>
    rw [upsert_cons] at h
    split_ifs at h with h1 h2
    · simpa using h
    · simp at h
      rcases h with h | h
      · exact Or.inl h
      · exact Or.inr (List.mem_cons_of_mem _ h)
    · simp at h
      rcases h with h | h
      · subst h
        exact Or.inr (List.mem_cons_self _ _)
      · rcases ih h with h' | h'
        · exact Or.inl h'
        · exact Or.inr (List.mem_cons_of_mem _ h')

/-- Strict key ordering of a record list. -/
def KeysSorted (recs : List InMemoryRecord) : Prop :=
  List.Pairwise (fun a b : InMemoryRecord => a.key < b.key) recs

theorem upsert_sorted {recs : List InMemoryRecord} {key : Bytes} {nr : InMemoryRecord}
    (hk : nr.key = key) (h : KeysSorted recs) : KeysSorted (upsert recs key nr) := by
  induction recs with
  | nil => simp [upsert_nil, KeysSorted]
  | cons r rest ih =>
    rw [KeysSorted, List.pairwise_cons] at h
    obtain ⟨hr, hrest⟩ := h
    rw [upsert_cons]
    split_ifs with h1 h2
    · refine List.Pairwise.cons ?_ (List.Pairwise.cons hr hrest)
      intro b hb
      rcases List.mem_cons.mp hb with hb | hb
      · rw [hb, hk]; exact h1
      · rw [hk]; exact lt_trans h1 (hr b hb)
    · refine List.Pairwise.cons ?_ hrest
      intro b hb
      rw [hk, h2]
      exact hr b hb
    · have h3 : r.key < key := by
        rcases lt_trichotomy key r.key with h | h | h
        · exact absurd h h1
        · exact absurd h h2
        · exact h
      refine List.Pairwise.cons ?_ (ih hrest)
      intro b hb
      rcases mem_upsert hb with hb' | hb'
      · rw [hb', hk]; exact h3
      · exact hr b hb'

theorem applyOp_sorted {t : InMemoryTable} (h : KeysSorted t.records) (op : StoreOp) :
    KeysSorted (applyOp t op).records := by
  cases op with
  | setOp key value ts =>
    rw [applyOp, insert_records]
    exact upsert_sorted rfl h
  | delOp key ts =>
    rw [applyOp, remove_records]
    exact upsert_sorted rfl h

theorem applyOps_sorted (ops : List StoreOp) : KeysSorted (applyOps ops).records := by
  rw [applyOps]
  have h : ∀ t : InMemoryTable, KeysSorted t.records →
      KeysSorted (ops.foldl applyOp t).records := by
    induction ops with
    | nil => intro t h; simpa using h
    | cons op rest ih =>
      intro t h
      exact ih _ (applyOp_sorted h op)
  exact h InMemoryTable.new (by simp [InMemoryTable.new, KeysSorted])

theorem getD_mem {α : Type} {l : List α} {i : Nat} (h : i < l.length) (d : α) :
    l.getD i d ∈ l := by
  induction l generalizing i with
  | nil => simp at h
  | cons x xs ih =>
    cases i with
    | zero => simp
    | succ n =>
      simp only [List.getD_cons_succ]
      exact List.mem_cons_of_mem _ (ih (by simpa using h))

theorem find_found {recs : List InMemoryRecord} {key : Bytes} {i : Nat}
    (h : InMemoryTable.find_key_position recs key = .found i) :
    i < recs.length ∧ (recs.getD i default).key = key := by
  induction recs generalizing i with
  | nil => exact SearchResult.noConfusion h
  | cons r rest ih =>
    rw [find_key_position_cons] at h
    by_cases h1 : key < r.key
    · rw [if_pos h1] at h
      exact SearchResult.noConfusion h
    · by_cases h2 : key = r.key
      · rw [if_neg h1, if_pos h2] at h
        injection h with h0
        subst h0
        exact ⟨Nat.succ_pos _, h2.symm⟩
      · rw [if_neg h1, if_neg h2] at h
        revert h
        cases hf : InMemoryTable.find_key_position rest key with
        | found j =>
          intro h
          injection h with h0
          subst h0
          obtain ⟨hl, hk⟩ := ih hf
          exact ⟨Nat.succ_lt_succ hl, hk⟩
        | notFound j =>
          intro h
          exact SearchResult.noConfusion h

theorem find_notFound_le {recs : List InMemoryRecord} {key : Bytes} {i : Nat}
    (h : InMemoryTable.find_key_position recs key = .notFound i) : i ≤ recs.length := by
  induction recs generalizing i with
  | nil =>
    injection h with h0
    subst h0
    exact Nat.le_refl 0
  | cons r rest ih =>
    rw [find_key_position_cons] at h
    by_cases h1 : key < r.key
    · rw [if_pos h1] at h
      injection h with h0
      subst h0
      exact Nat.zero_le _
    · by_cases h2 : key = r.key
      · rw [if_neg h1, if_pos h2] at h
        exact SearchResult.noConfusion h
      · rw [if_neg h1, if_neg h2] at h
        revert h
        cases hf : InMemoryTable.find_key_position rest key with
        | found j => intro h; exact SearchResult.noConfusion h
        | notFound j =>
          intro h
          injection h with h0
          subst h0
          exact Nat.succ_le_succ (ih hf)

theorem sum_map_set {α : Type} (f : α → Nat) (l : List α) (i : Nat) (hi : i < l.length)
    (a d : α) :
    ((l.set i a).map f).sum + f (l.getD i d) = (l.map f).sum + f a := by
  induction l generalizing i with
  | nil => simp at hi
  | cons x xs ih =>
    cases i with
    | zero => simp; omega
    | succ n =>
      simp only [List.set_cons_succ, List.map_cons, List.sum_cons, List.getD_cons_succ]
      have := ih n (by simpa using hi)
      omega

theorem sum_map_insertIdx {α : Type} (f : α → Nat) (l : List α) (i : Nat)
    (hi : i ≤ l.length) (a : α) :
    ((List.insertIdx i a l).map f).sum = (l.map f).sum + f a := by
  induction l generalizing i with
  | nil =>
    have : i = 0 := by simpa using hi
    subst this
    simp
  | cons x xs ih =>
    cases i with
    | zero => simp; omega
    | succ n =>
      simp only [List.insertIdx_succ_cons, List.map_cons, List.sum_cons]
      have := ih n (by simpa using hi)
      omega

/-- The byte footprint one record contributes per the spec formula:
len(key) + (len(value) if live else 0) + 17. -/
def recordSize (r : InMemoryRecord) : Nat :=
  r.key.length + (if r.is_deleted then 0 else (r.value.getD []).length) + 17

/-- Flag coherence: a record is marked deleted exactly when its value is absent. -/
def Coherent (recs : List InMemoryRecord) : Prop :=
  ∀ r ∈ recs, r.is_deleted = r.value.isNone

/-- total_size agrees with the per-record sum. -/
def SizeAccurate (t : InMemoryTable) : Prop :=
  t.total_size = (t.records.map recordSize).sum

theorem recordSize_live (key value : Bytes) (ts : Nat) :
    recordSize ⟨key, some value, ts, false⟩ = key.length + value.length + 17 := by
  simp [recordSize]

theorem recordSize_tombstone (key : Bytes) (ts : Nat) :
    recordSize ⟨key, none, ts, true⟩ = key.length + 17 := by
  simp [recordSize]

theorem recordSize_of_value_some {r : InMemoryRecord} {existing_value : Bytes}
    (hdel : r.is_deleted = false) (hv : r.value = some existing_value) :
    recordSize r = r.key.length + existing_value.length + 17 := by
  simp [recordSize, hdel, hv]

theorem recordSize_of_value_none {r : InMemoryRecord}
    (hdel : r.is_deleted = true) (hv : r.value = none) :
    recordSize r = r.key.length + 17 := by
  simp [recordSize, hdel, hv]

theorem insert_invariant {t : InMemoryTable} (hc : Coherent t.records)
    (hs : SizeAccurate t) (key value : Bytes) (ts : Nat) :
    Coherent (t.insert key value ts).records ∧ SizeAccurate (t.insert key value ts) := by
  constructor
  · rw [insert_records]
    intro r hr
    rcases mem_upsert hr with h | h
    · subst h; rfl
    · exact hc r h
  · unfold InMemoryTable.insert SizeAccurate
    rw [SizeAccurate] at hs
    cases hf : InMemoryTable.find_key_position t.records key with
    | found index =>
      dsimp only
      obtain ⟨hl, hk⟩ := find_found hf
      have hsum := sum_map_set recordSize t.records index hl
        ⟨key, some value, ts, false⟩ default
      rw [recordSize_live] at hsum
      have hmem := getD_mem hl (default : InMemoryRecord)
      have hcoh := hc _ hmem
      cases hv : (t.records.getD index default).value with
      | some existing_value =>
        have hdel : (t.records.getD index default).is_deleted = false := by
          rw [hcoh, hv]; rfl
        rw [recordSize_of_value_some hdel hv, hk] at hsum
        dsimp only
        split_ifs with hlen <;> omega
      | none =>
        have hdel : (t.records.getD index default).is_deleted = true := by
          rw [hcoh, hv]; rfl
        rw [recordSize_of_value_none hdel hv, hk] at hsum
        dsimp only
        omega
    | notFound index =>
      dsimp only
      have hle := find_notFound_le hf
      have hsum := sum_map_insertIdx recordSize t.records index hle
        ⟨key, some value, ts, false⟩
      rw [recordSize_live] at hsum
      omega

theorem remove_invariant {t : InMemoryTable} (hc : Coherent t.records)
    (hs : SizeAccurate t) (key : Bytes) (ts : Nat) :
    Coherent (t.remove key ts).records ∧ SizeAccurate (t.remove key ts) := by
  constructor
  · rw [remove_records]
    intro r hr
    rcases mem_upsert hr with h | h
    · subst h; rfl
    · exact hc r h
  · unfold InMemoryTable.remove SizeAccurate
    rw [SizeAccurate] at hs
    cases hf : InMemoryTable.find_key_position t.records key with
    | found index =>
      dsimp only
      obtain ⟨hl, hk⟩ := find_found hf
      have hsum := sum_map_set recordSize t.records index hl
        ⟨key, none, ts, true⟩ default
      rw [recordSize_tombstone] at hsum
      have hmem := getD_mem hl (default : InMemoryRecord)
      have hcoh := hc _ hmem
      cases hv : (t.records.getD index default).value with
      | some existing_value =>
        have hdel : (t.records.getD index default).is_deleted = false := by
          rw [hcoh, hv]; rfl
        rw [recordSize_of_value_some hdel hv, hk] at hsum
        dsimp only
        omega
      | none =>
        have hdel : (t.records.getD index default).is_deleted = true := by
          rw [hcoh, hv]; rfl
        rw [recordSize_of_value_none hdel hv, hk] at hsum
        dsimp only
        omega
    | notFound index =>
      dsimp only
      have hle := find_notFound_le hf
      have hsum := sum_map_insertIdx recordSize t.records index hle
        ⟨key, none, ts, true⟩
      rw [recordSize_tombstone] at hsum
      omega

theorem applyOps_invariant (ops : List StoreOp) :
    Coherent (applyOps ops).records ∧ SizeAccurate (applyOps ops) := by
  rw [applyOps]
  have h : ∀ t : InMemoryTable, Coherent t.records → SizeAccurate t →
      Coherent (ops.foldl applyOp t).records ∧ SizeAccurate (ops.foldl applyOp t) := by
    induction ops with
    | nil => intro t hc hs; exact ⟨hc, hs⟩
    | cons op rest ih =>
      intro t hc hs
      cases op with
      | setOp key value ts =>
        obtain ⟨hc', hs'⟩ := insert_invariant hc hs key value ts
        exact ih _ hc' hs'
      | delOp key ts =>
        obtain ⟨hc', hs'⟩ := remove_invariant hc hs key ts
        exact ih _ hc' hs'
  exact h InMemoryTable.new (by intro r hr; simp [InMemoryTable.new] at hr) rfl

/-- C5: every MemTable state reachable from the empty table by insert/remove
operations has strictly lexicographically ascending keys at adjacent positions,
and consequently no two records share a key. -/
theorem mem_table_keys_sorted_and_unique (ops : List StoreOp) :
    List.Chain' (· < ·) ((applyOps ops).records.map (fun r => r.key)) ∧
    ((applyOps ops).records.map (fun r => r.key)).Nodup := by
  have h := applyOps_sorted ops
  have hp : List.Pairwise (· < ·) ((applyOps ops).records.map (fun r => r.key)) :=
    List.pairwise_map.mpr h
  exact ⟨hp.chain', hp.imp fun hlt => ne_of_lt hlt⟩

/-- C6: every MemTable state reachable from the empty table by any sequence of
insert and remove operations has current_size equal to the sum over all records
of len(key) + (len(value) if live else 0) + 17. -/
theorem mem_table_size_accounting (ops : List StoreOp) :
    (applyOps ops).current_size = ((applyOps ops).records.map recordSize).sum :=
  (applyOps_invariant ops).2

/-- Little-endian byte encoding of n across w bytes, least significant first
(Rust to_le_bytes; the width w performs the same truncation as the "as u64"
cast, since only w bytes are emitted). -/
def toLEBytes : Nat → Nat → Bytes
  | 0, _ => []
  | w + 1, n => n % 256 :: toLEBytes w (n / 256)

/-- Rust usize::from_le_bytes / u128::from_le_bytes on a little-endian chunk. -/
def fromLEBytes : Bytes → Nat
  | [] => 0
  | b :: rest => b + 256 * fromLEBytes rest

/-- src/wal.rs: WAL::record_insertion — the bytes one insertion frame appends:
u64 key_len, u8 flag = 0, u64 value_len, key, value, u128 timestamp. -/
def record_insertion (key value : Bytes) (timestamp : Nat) : Bytes :=
  toLEBytes 8 key.length ++ [0] ++ toLEBytes 8 value.length ++ key ++ value ++
    toLEBytes 16 timestamp

/-- src/wal.rs: WAL::record_removal — the bytes one deletion frame appends:
u64 key_len, u8 flag = 1, key, u128 timestamp. -/
def record_removal (key : Bytes) (timestamp : Nat) : Bytes :=
  toLEBytes 8 key.length ++ [1] ++ key ++ toLEBytes 16 timestamp

/-- src/wal_iterator.rs: LogRecord — one decoded WAL frame. -/
structure LogRecord where
  identifier : Bytes
  data : Option Bytes
  event_time : Nat
  is_removed : Bool
deriving DecidableEq, Repr

/-- BufReader::read_exact of n bytes: the chunk plus the remainder, or failure
when fewer than n bytes remain. -/
def takeExact (n : Nat) (bytes : Bytes) : Option (Bytes × Bytes) :=
  if n ≤ bytes.length then some (bytes.take n, bytes.drop n) else none

/-- src/wal_iterator.rs: LogFileIterator::next on the remaining file bytes —
one decoded record and the remainder, or none at end-of-file or at any short
read mid-frame.  The source's is_deleted boolean (flag byte != 0) is the
decidable test of the if below. -/
def readFrame (bytes : Bytes) : Option (LogRecord × Bytes) :=
  match takeExact 8 bytes with
  | none => none
  | some (key_length_buffer, r1) =>
    let key_length := fromLEBytes key_length_buffer
    match takeExact 1 r1 with
    | none => none
    | some (deletion_flag_buffer, r2) =>
      if deletion_flag_buffer.getD 0 0 ≠ 0 then
        match takeExact key_length r2 with
        | none => none
        | some (identifier, r3) =>
          match takeExact 16 r3 with
          | none => none
          | some (timestamp_buf, r4) =>
            some (⟨identifier, none, fromLEBytes timestamp_buf, true⟩, r4)
      else
        match takeExact 8 r2 with
        | none => none
        | some (value_length_buffer, r3) =>
          let value_length := fromLEBytes value_length_buffer
          match takeExact key_length r3 with
          | none => none
          | some (identifier, r4) =>
            match takeExact value_length r4 with
            | none => none
            | some (value_buffer, r5) =>
              match takeExact 16 r5 with
              | none => none
              | some (timestamp_buf, r6) =>
                some (⟨identifier, some value_buffer, fromLEBytes timestamp_buf, false⟩, r6)

/-- Fuel-indexed iteration of readFrame; the fuel only serves termination and
is irrelevant once it exceeds the byte count (decodeFramesAux_congr). -/
def decodeFramesAux : Nat → Bytes → List LogRecord
  | 0, _ => []
  | fuel + 1, bytes =>
    match readFrame bytes with
    | none => []
    | some (r, rest) => r :: decodeFramesAux fuel rest

/-- The full sequence of LogRecords the iterator yields over a file's bytes. -/
def decodeFrames (bytes : Bytes) : List LogRecord :=
  decodeFramesAux (bytes.length + 1) bytes

theorem toLEBytes_length (w n : Nat) : (toLEBytes w n).length = w := by
  induction w generalizing n with
  | zero => rfl
  | succ v ih => simp [toLEBytes, ih]

theorem fromLEBytes_toLEBytes (w n : Nat) : fromLEBytes (toLEBytes w n) = n % 256 ^ w := by
  induction w generalizing n with
  | zero => simp [toLEBytes, fromLEBytes, Nat.mod_one]
  | succ v ih =>
    rw [toLEBytes, fromLEBytes, ih, show (256:Nat) ^ (v + 1) = 256 * 256 ^ v by ring,
      Nat.mod_mul]

theorem takeExact_append (a b : Bytes) (n : Nat) (h : a.length = n) :
    takeExact n (a ++ b) = some (a, b) := by
  subst h
  simp [takeExact, List.take_left, List.drop_left]

theorem takeExact_toLEBytes (w n : Nat) (b : Bytes) :
    takeExact w (toLEBytes w n ++ b) = some (toLEBytes w n, b) :=
  takeExact_append _ _ _ (toLEBytes_length w n)

theorem takeExact_self (a b : Bytes) : takeExact a.length (a ++ b) = some (a, b) :=
  takeExact_append _ _ _ rfl

theorem takeExact_singleton (x : Nat) (b : Bytes) : takeExact 1 (x :: b) = some ([x], b) := by
  simp [takeExact]

theorem takeExact_lengths {n : Nat} {bytes a b : Bytes}
    (h : takeExact n bytes = some (a, b)) :
    a.length = n ∧ bytes.length = n + b.length := by
  by_cases hle : n ≤ bytes.length
  · rw [takeExact, if_pos hle] at h
    injection h with h0
    injection h0 with ha hb
    subst ha
    subst hb
    constructor
    · rw [List.length_take]
      omega
    · rw [List.length_drop]
      omega
  · rw [takeExact, if_neg hle] at h
    exact Option.noConfusion h

theorem takeExact_extend {n : Nat} {bytes a b : Bytes}
    (h : takeExact n bytes = some (a, b)) (s : Bytes) :
    takeExact n (bytes ++ s) = some (a, b ++ s) := by
  by_cases hle : n ≤ bytes.length
  · rw [takeExact, if_pos hle] at h
    injection h with h0
    injection h0 with ha hb
    subst ha
    subst hb
    rw [takeExact]
    rw [if_pos (by rw [List.length_append]; omega)]
    rw [List.take_append_of_le_length hle, List.drop_append_of_le_length hle]
  · rw [takeExact, if_neg hle] at h
    exact Option.noConfusion h

theorem readFrame_some_spec {bytes : Bytes} {r : LogRecord} {rest : Bytes}
    (h : readFrame bytes = some (r, rest)) :
    rest.length < bytes.length ∧
      ∀ s : Bytes, readFrame (bytes ++ s) = some (r, rest ++ s) := by
  rw [readFrame] at h
  cases h8 : takeExact 8 bytes with
  | none => rw [h8] at h; exact Option.noConfusion h
  | some p8 =>
    obtain ⟨key_length_buffer, r1⟩ := p8
    rw [h8] at h
    dsimp only at h
    have hl8 := takeExact_lengths h8
    cases h1 : takeExact 1 r1 with
    | none => rw [h1] at h; exact Option.noConfusion h
    | some p1 =>
      obtain ⟨deletion_flag_buffer, r2⟩ := p1
      rw [h1] at h
      dsimp only at h
      have hl1 := takeExact_lengths h1
      by_cases hflag : deletion_flag_buffer.getD 0 0 ≠ 0
      · rw [if_pos hflag] at h
        cases hk : takeExact (fromLEBytes key_length_buffer) r2 with
        | none => rw [hk] at h; exact Option.noConfusion h
        | some pk =>
          obtain ⟨identifier, r3⟩ := pk
          rw [hk] at h
          dsimp only at h
          have hlk := takeExact_lengths hk
          cases ht : takeExact 16 r3 with
          | none => rw [ht] at h; exact Option.noConfusion h
          | some pt =>
            obtain ⟨timestamp_buf, r4⟩ := pt
            rw [ht] at h
            dsimp only at h
            have hlt := takeExact_lengths ht
            injection h with h0
            injection h0 with hr hrest
            constructor
            · rw [← hrest]
              omega
            · intro s
              rw [readFrame, takeExact_extend h8 s]
              dsimp only
              rw [takeExact_extend h1 s]
              dsimp only
              rw [if_pos hflag, takeExact_extend hk s]
              dsimp only
              rw [takeExact_extend ht s]
              dsimp only
              rw [← hr, ← hrest]
      · rw [if_neg hflag] at h
        cases hv : takeExact 8 r2 with
        | none => rw [hv] at h; exact Option.noConfusion h
        | some pv =>
          obtain ⟨value_length_buffer, r3⟩ := pv
          rw [hv] at h
          dsimp only at h
          have hlv := takeExact_lengths hv
          cases hk : takeExact (fromLEBytes key_length_buffer) r3 with
          | none => rw [hk] at h; exact Option.noConfusion h
          | some pk =>
            obtain ⟨identifier, r4⟩ := pk
            rw [hk] at h
            dsimp only at h
            have hlk := takeExact_lengths hk
            cases hvb : takeExact (fromLEBytes value_length_buffer) r4 with
            | none => rw [hvb] at h; exact Option.noConfusion h
            | some pvb =>
              obtain ⟨value_buffer, r5⟩ := pvb
              rw [hvb] at h
              dsimp only at h
              have hlvb := takeExact_lengths hvb
              cases ht : takeExact 16 r5 with
              | none => rw [ht] at h; exact Option.noConfusion h
              | some pt =>
                obtain ⟨timestamp_buf, r6⟩ := pt
                rw [ht] at h
                dsimp only at h
                have hlt := takeExact_lengths ht
                injection h with h0
                injection h0 with hr hrest
                constructor
                · rw [← hrest]
                  omega
                · intro s
                  rw [readFrame, takeExact_extend h8 s]
                  dsimp only
                  rw [takeExact_extend h1 s]
                  dsimp only
                  rw [if_neg hflag, takeExact_extend hv s]
                  dsimp only
                  rw [takeExact_extend hk s]
                  dsimp only
                  rw [takeExact_extend hvb s]
                  dsimp only
                  rw [takeExact_extend ht s]
                  dsimp only
                  rw [← hr, ← hrest]

theorem decodeFramesAux_congr :
    ∀ (fuel₁ fuel₂ : Nat) (bytes : Bytes), bytes.length < fuel₁ →
      bytes.length < fuel₂ → decodeFramesAux fuel₁ bytes = decodeFramesAux fuel₂ bytes := by
  intro fuel₁
  induction fuel₁ with
  | zero => intro fuel₂ bytes h1 h2; omega
  | succ n ih =>
    intro fuel₂ bytes h1 h2
    cases fuel₂ with
    | zero => omega
    | succ m =>
      simp only [decodeFramesAux]
      cases hf : readFrame bytes with
      | none => rfl
      | some p =>
        obtain ⟨r, rest⟩ := p
        have hlt := (readFrame_some_spec hf).1
        dsimp only
        rw [ih m rest (by omega) (by omega)]

theorem decodeFrames_eq_aux {bytes : Bytes} {fuel : Nat} (h : bytes.length < fuel) :
    decodeFrames bytes = decodeFramesAux fuel bytes :=
  decodeFramesAux_congr _ _ bytes (Nat.lt_succ_self _) h

theorem decodeFrames_cons_frame {frame : Bytes} {r : LogRecord}
    (h : ∀ tail : Bytes, readFrame (frame ++ tail) = some (r, tail)) (rest : Bytes) :
    decodeFrames (frame ++ rest) = r :: decodeFrames rest := by
  have h0 := h rest
  have hlt := (readFrame_some_spec h0).1
  rw [decodeFrames]
  simp only [decodeFramesAux, h0]
  rw [← decodeFrames_eq_aux (by omega)]

theorem two_pow_64_eq : (2 : Nat) ^ 64 = 256 ^ 8 := by norm_num

theorem two_pow_128_eq : (2 : Nat) ^ 128 = 256 ^ 16 := by norm_num

theorem readFrame_record_removal (key : Bytes) (ts : Nat) (rest : Bytes)
    (hk : key.length < 2 ^ 64) (ht : ts < 2 ^ 128) :
    readFrame (record_removal key ts ++ rest) = some (⟨key, none, ts, true⟩, rest) := by
  have hkl : fromLEBytes (toLEBytes 8 key.length) = key.length := by
    rw [fromLEBytes_toLEBytes]
    exact Nat.mod_eq_of_lt (by rw [← two_pow_64_eq]; exact hk)
  have htl : fromLEBytes (toLEBytes 16 ts) = ts := by
    rw [fromLEBytes_toLEBytes]
    exact Nat.mod_eq_of_lt (by rw [← two_pow_128_eq]; exact ht)
  have e1 : record_removal key ts ++ rest =
      toLEBytes 8 key.length ++ (1 :: (key ++ (toLEBytes 16 ts ++ rest))) := by
    simp [record_removal, List.append_assoc]
  rw [e1, readFrame, takeExact_toLEBytes]
  dsimp only
  rw [takeExact_singleton]
  dsimp only
  rw [if_pos (by decide)]
  rw [hkl, takeExact_self]
  dsimp only
  rw [takeExact_toLEBytes]
  dsimp only
  rw [htl]

theorem readFrame_record_insertion (key value : Bytes) (ts : Nat) (rest : Bytes)
    (hk : key.length < 2 ^ 64) (hv : value.length < 2 ^ 64) (ht : ts < 2 ^ 128) :
    readFrame (record_insertion key value ts ++ rest) =
      some (⟨key, some value, ts, false⟩, rest) := by
  have hkl : fromLEBytes (toLEBytes 8 key.length) = key.length := by
    rw [fromLEBytes_toLEBytes]
    exact Nat.mod_eq_of_lt (by rw [← two_pow_64_eq]; exact hk)
  have hvl : fromLEBytes (toLEBytes 8 value.length) = value.length := by
    rw [fromLEBytes_toLEBytes]
    exact Nat.mod_eq_of_lt (by rw [← two_pow_64_eq]; exact hv)
  have htl : fromLEBytes (toLEBytes 16 ts) = ts := by
    rw [fromLEBytes_toLEBytes]
    exact Nat.mod_eq_of_lt (by rw [← two_pow_128_eq]; exact ht)
  have e1 : record_insertion key value ts ++ rest =
      toLEBytes 8 key.length ++
        (0 :: (toLEBytes 8 value.length ++ (key ++ (value ++ (toLEBytes 16 ts ++ rest))))) := by
    simp [record_insertion, List.append_assoc]
  rw [e1, readFrame, takeExact_toLEBytes]
  dsimp only
  rw [takeExact_singleton]
  dsimp only
  rw [if_neg (by decide)]
  rw [takeExact_toLEBytes]
  dsimp only
  rw [hkl, takeExact_self]
  dsimp only
  rw [hvl, takeExact_self]
  dsimp only
  rw [takeExact_toLEBytes]
  dsimp only
  rw [htl]

/-- The LogRecord the iterator must yield back for one appended operation. -/
def toLogRecord : StoreOp → LogRecord
  | .setOp key value ts => ⟨key, some value, ts, false⟩
  | .delOp key ts => ⟨key, none, ts, true⟩

/-- The frame bytes one store operation appends to the active WAL
(record_insertion for set, record_removal for delete, per src/disk.rs). -/
def encodeOp : StoreOp → Bytes
  | .setOp key value ts => record_insertion key value ts
  | .delOp key ts => record_removal key ts

/-- Machine-range side conditions that hold for free in the Rust source
(slice lengths fit in usize/u64, timestamps are u128) but must be stated over
Nat. -/
def wfOp : StoreOp → Prop
  | .setOp key value ts => key.length < 2 ^ 64 ∧ value.length < 2 ^ 64 ∧ ts < 2 ^ 128
  | .delOp key ts => key.length < 2 ^ 64 ∧ ts < 2 ^ 128

instance : DecidablePred wfOp := by
  intro op
  cases op with
  | setOp key value ts =>
    exact inferInstanceAs
      (Decidable (key.length < 2 ^ 64 ∧ value.length < 2 ^ 64 ∧ ts < 2 ^ 128))
  | delOp key ts =>
    exact inferInstanceAs (Decidable (key.length < 2 ^ 64 ∧ ts < 2 ^ 128))

theorem readFrame_encodeOp {op : StoreOp} (h : wfOp op) (rest : Bytes) :
    readFrame (encodeOp op ++ rest) = some (toLogRecord op, rest) := by
  cases op with
  | setOp key value ts =>
    obtain ⟨hk, hv, ht⟩ := h
    exact readFrame_record_insertion key value ts rest hk hv ht
  | delOp key ts =>
    obtain ⟨hk, ht⟩ := h
    exact readFrame_record_removal key ts rest hk ht

theorem decodeFrames_encodeOps (ops : List StoreOp) (h : ∀ op ∈ ops, wfOp op) :
    decodeFrames ((ops.map encodeOp).flatten) = ops.map toLogRecord := by
  induction ops with
  | nil => rfl
  | cons op rest ih =>
    simp only [List.map_cons, List.flatten_cons]
    rw [decodeFrames_cons_frame (readFrame_encodeOp (h op (List.mem_cons_self op rest)))]
    rw [ih (fun o ho => h o (List.mem_cons_of_mem op ho))]

/-- C4: appending any sequence of insertion/removal frames and flushing, then
iterating the same file, yields exactly the corresponding LogRecord sequence. -/
theorem wal_frame_round_trip (ops : List StoreOp) (h : ∀ op ∈ ops, wfOp op) :
    decodeFrames ((ops.map encodeOp).flatten) = ops.map toLogRecord :=
  decodeFrames_encodeOps ops h

/-- Witness for C4 at a concrete operation sequence. -/
theorem wal_frame_round_trip_spot :
    decodeFrames (([StoreOp.setOp [1] [2, 3] 5, StoreOp.delOp [1] 7].map encodeOp).flatten) =
      [StoreOp.setOp [1] [2, 3] 5, StoreOp.delOp [1] 7].map toLogRecord :=
  wal_frame_round_trip [StoreOp.setOp [1] [2, 3] 5, StoreOp.delOp [1] 7] (by decide)

theorem takeExact_short {n : Nat} {bytes : Bytes} (h : bytes.length < n) :
    takeExact n bytes = none := by
  rw [takeExact, if_neg (by omega)]

theorem readFrame_strict_pre {op : StoreOp} (h : wfOp op) {p q : Bytes}
    (hsplit : encodeOp op = p ++ q) (hq : q ≠ []) : readFrame p = none := by
  cases hr : readFrame p with
  | none => rfl
  | some pr =>
    obtain ⟨r, rest⟩ := pr
    have hext := (readFrame_some_spec hr).2 q
    rw [← hsplit] at hext
    have henc : readFrame (encodeOp op) = some (toLogRecord op, []) := by
      have h0 := readFrame_encodeOp h []
      rwa [List.append_nil] at h0
    rw [henc] at hext
    injection hext with h0
    injection h0 with hr2 hrest
    exact (hq (List.append_eq_nil.mp hrest.symm).2).elim

theorem decodeFrames_stops {p : Bytes} (hp : readFrame p = none) :
    ∀ ops : List StoreOp, (∀ op ∈ ops, wfOp op) →
      decodeFrames ((ops.map encodeOp).flatten ++ p) = ops.map toLogRecord := by
  intro ops
  induction ops with
  | nil =>
    intro _
    simp only [List.map_nil, List.flatten_nil, List.nil_append]
    rw [decodeFrames]
    simp only [decodeFramesAux, hp]
  | cons op rest ih =>
    intro h
    simp only [List.map_cons, List.flatten_cons, List.append_assoc]
    rw [decodeFrames_cons_frame (readFrame_encodeOp (h op (List.mem_cons_self op rest)))]
    rw [ih (fun o ho => h o (List.mem_cons_of_mem op ho))]

/-- C7: the iterator ends cleanly (no record, no error) when fewer than 8
bytes remain at the key_len read, and a file holding well-formed frames
followed by any strict prefix of a further frame decodes to exactly the
complete frames — the mid-frame short read yields no further records. -/
theorem iterator_truncation (ops : List StoreOp) (f : StoreOp)
    (p q short_bytes : Bytes)
    (hops : ∀ op ∈ ops, wfOp op) (hf : wfOp f)
    (hsplit : encodeOp f = p ++ q) (hq : q ≠ [])
    (hshort : short_bytes.length < 8) :
    readFrame short_bytes = none ∧
      decodeFrames ((ops.map encodeOp).flatten ++ p) = ops.map toLogRecord := by
  constructor
  · rw [readFrame, takeExact_short hshort]
  · exact decodeFrames_stops (readFrame_strict_pre hf hsplit hq) ops hops

/-- Witness for C7: one complete frame followed by the first 10 bytes of a
deletion frame decodes to exactly the one complete record, and a 3-byte file
yields no record at all. -/
theorem iterator_truncation_spot :
    readFrame [9, 9, 9] = none ∧
      decodeFrames (([StoreOp.setOp [1] [2] 3].map encodeOp).flatten ++
          List.take 10 (encodeOp (StoreOp.delOp [4] 5))) =
        [StoreOp.setOp [1] [2] 3].map toLogRecord :=
  iterator_truncation [StoreOp.setOp [1] [2] 3] (StoreOp.delOp [4] 5)
    (List.take 10 (encodeOp (StoreOp.delOp [4] 5)))
    (List.drop 10 (encodeOp (StoreOp.delOp [4] 5))) [9, 9, 9]
    (by decide) (by decide) (List.take_append_drop 10 _).symm (by decide) (by decide)

/-- Replay one decoded LogRecord into the MemTable: the loop body of
WAL::recover_from_directory.  The source unwraps log.data on the insertion
path; the iterator only produces insertion records with data present, so the
unwrap is modelled by getD []. -/
def applyLog (m : InMemoryTable) (log : LogRecord) : InMemoryTable :=
  if log.is_removed then m.remove log.identifier log.event_time
  else m.insert log.identifier (log.data.getD []) log.event_time

/-- The frame the recovery loop re-emits into the fresh active WAL for one
replayed record (record_removal or record_insertion, matching frame type). -/
def encodeLogRecord (log : LogRecord) : Bytes :=
  if log.is_removed then record_removal log.identifier log.event_time
  else record_insertion log.identifier (log.data.getD []) log.event_time

/-- wal_files.sort() in src/wal.rs: paths ordered lexicographically by file
name.  Vec::sort is a stable comparison sort; it is modelled by a stable
insertion sort over the same order. -/
def sortWalFiles (files : List (Bytes × Bytes)) : List (Bytes × Bytes) :=
  List.insertionSort (fun a b => a.1 ≤ b.1) files

/-- src/wal.rs: WAL::recover_from_directory over the directory's .wal files
given as (file name, file content) pairs: sort by name, replay every frame of
every file in order into a fresh MemTable, and re-emit every frame into the
newly created active WAL, returned as its byte content.  File I/O succeeds
here; open failures are modelled separately (replayFiles below). -/
def recover_from_directory (wal_files : List (Bytes × Bytes)) : InMemoryTable × Bytes :=
  let logs := ((sortWalFiles wal_files).map (fun f => decodeFrames f.2)).flatten
  (logs.foldl applyLog InMemoryTable.new, (logs.map encodeLogRecord).flatten)

/-- Range facts true of every record a genuine byte file can decode to:
lengths fit u64, the timestamp fits u128, and data presence matches the
removal flag. -/
def WFLogRecord (r : LogRecord) : Prop :=
  r.identifier.length < 2 ^ 64 ∧ r.event_time < 2 ^ 128 ∧
    (if r.is_removed then r.data = none
     else r.data ≠ none ∧ (r.data.getD []).length < 2 ^ 64)

instance : DecidablePred WFLogRecord := by
  intro r
  unfold WFLogRecord
  infer_instance

theorem wfLogRecord_removal {identifier : Bytes} {ts : Nat}
    (hk : identifier.length < 2 ^ 64) (ht : ts < 2 ^ 128) :
    WFLogRecord ⟨identifier, none, ts, true⟩ := by
  refine ⟨hk, ht, ?_⟩
  simp

theorem wfLogRecord_insertion {identifier vb : Bytes} {ts : Nat}
    (hk : identifier.length < 2 ^ 64) (hv : vb.length < 2 ^ 64) (ht : ts < 2 ^ 128) :
    WFLogRecord ⟨identifier, some vb, ts, false⟩ := by
  refine ⟨hk, ht, ?_⟩
  simpa using hv

theorem fromLEBytes_lt {bs : Bytes} (h : ∀ b ∈ bs, b < 256) :
    fromLEBytes bs < 256 ^ bs.length := by
  induction bs with
  | nil => simp [fromLEBytes]
  | cons b rest ih =>
    have hb := h b (List.mem_cons_self _ _)
    have hr := ih (fun x hx => h x (List.mem_cons_of_mem _ hx))
    rw [fromLEBytes, List.length_cons,
      show (256 : Nat) ^ (rest.length + 1) = 256 * 256 ^ rest.length by ring]
    omega

theorem takeExact_mem {n : Nat} {bytes a b : Bytes} (h : takeExact n bytes = some (a, b)) :
    (∀ x ∈ a, x ∈ bytes) ∧ ∀ x ∈ b, x ∈ bytes := by
  by_cases hle : n ≤ bytes.length
  · rw [takeExact, if_pos hle] at h
    injection h with h0
    injection h0 with ha hb
    subst ha
    subst hb
    exact ⟨fun x hx => List.take_subset _ _ hx, fun x hx => List.drop_subset _ _ hx⟩
  · rw [takeExact, if_neg hle] at h
    exact Option.noConfusion h

theorem readFrame_wf {bytes : Bytes} (hb : ∀ b ∈ bytes, b < 256) {r : LogRecord}
    {rest : Bytes} (h : readFrame bytes = some (r, rest)) :
    WFLogRecord r ∧ ∀ b ∈ rest, b < 256 := by
  rw [readFrame] at h
  cases h8 : takeExact 8 bytes with
  | none => rw [h8] at h; exact Option.noConfusion h
  | some p8 =>
    obtain ⟨key_length_buffer, r1⟩ := p8
    rw [h8] at h
    dsimp only at h
    have hl8 := takeExact_lengths h8
    have hm8 := takeExact_mem h8
    have hkey_lt : fromLEBytes key_length_buffer < 2 ^ 64 := by
      rw [two_pow_64_eq, ← hl8.1]
      exact fromLEBytes_lt (fun x hx => hb x (hm8.1 x hx))
    cases h1 : takeExact 1 r1 with
    | none => rw [h1] at h; exact Option.noConfusion h
    | some p1 =>
      obtain ⟨deletion_flag_buffer, r2⟩ := p1
      rw [h1] at h
      dsimp only at h
      have hm1 := takeExact_mem h1
      have hr2 : ∀ b ∈ r2, b < 256 := fun x hx => hb x (hm8.2 x (hm1.2 x hx))
      by_cases hflag : deletion_flag_buffer.getD 0 0 ≠ 0
      · rw [if_pos hflag] at h
        cases hk : takeExact (fromLEBytes key_length_buffer) r2 with
        | none => rw [hk] at h; exact Option.noConfusion h
        | some pk =>
          obtain ⟨identifier, r3⟩ := pk
          rw [hk] at h
          dsimp only at h
          have hlk := takeExact_lengths hk
          have hmk := takeExact_mem hk
          have hr3 : ∀ b ∈ r3, b < 256 := fun x hx => hr2 x (hmk.2 x hx)
          cases ht : takeExact 16 r3 with
          | none => rw [ht] at h; exact Option.noConfusion h
          | some pt =>
            obtain ⟨timestamp_buf, r4⟩ := pt
            rw [ht] at h
            dsimp only at h
            have hlt := takeExact_lengths ht
            have hmt := takeExact_mem ht
            injection h with h0
            injection h0 with hr hrest
            subst hr
            subst hrest
            constructor
            · refine wfLogRecord_removal (by omega) ?_
              rw [two_pow_128_eq, ← hlt.1]
              exact fromLEBytes_lt (fun x hx => hr3 x (hmt.1 x hx))
            · exact fun x hx => hr3 x (hmt.2 x hx)
      · rw [if_neg hflag] at h
        cases hv : takeExact 8 r2 with
        | none => rw [hv] at h; exact Option.noConfusion h
        | some pv =>
          obtain ⟨value_length_buffer, r3⟩ := pv
          rw [hv] at h
          dsimp only at h
          have hlv := takeExact_lengths hv
          have hmv := takeExact_mem hv
          have hr3 : ∀ b ∈ r3, b < 256 := fun x hx => hr2 x (hmv.2 x hx)
          have hval_lt : fromLEBytes value_length_buffer < 2 ^ 64 := by
            rw [two_pow_64_eq, ← hlv.1]
            exact fromLEBytes_lt (fun x hx => hr2 x (hmv.1 x hx))
          cases hk : takeExact (fromLEBytes key_length_buffer) r3 with
          | none => rw [hk] at h; exact Option.noConfusion h
          | some pk =>
            obtain ⟨identifier, r4⟩ := pk
            rw [hk] at h
            dsimp only at h
            have hlk := takeExact_lengths hk
            have hmk := takeExact_mem hk
            have hr4 : ∀ b ∈ r4, b < 256 := fun x hx => hr3 x (hmk.2 x hx)
            cases hvb : takeExact (fromLEBytes value_length_buffer) r4 with
            | none => rw [hvb] at h; exact Option.noConfusion h
            | some pvb =>
              obtain ⟨value_buffer, r5⟩ := pvb
              rw [hvb] at h
              dsimp only at h
              have hlvb := takeExact_lengths hvb
              have hmvb := takeExact_mem hvb
              have hr5 : ∀ b ∈ r5, b < 256 := fun x hx => hr4 x (hmvb.2 x hx)
              cases ht : takeExact 16 r5 with
              | none => rw [ht] at h; exact Option.noConfusion h
              | some pt =>
                obtain ⟨timestamp_buf, r6⟩ := pt
                rw [ht] at h
                dsimp only at h
                have hlt := takeExact_lengths ht
                have hmt := takeExact_mem ht
                injection h with h0
                injection h0 with hr hrest
                subst hr
                subst hrest
                constructor
                · refine wfLogRecord_insertion (by omega) (by omega) ?_
                  rw [two_pow_128_eq, ← hlt.1]
                  exact fromLEBytes_lt (fun x hx => hr5 x (hmt.1 x hx))
                · exact fun x hx => hr5 x (hmt.2 x hx)

theorem decodeFramesAux_wf :
    ∀ (fuel : Nat) (bytes : Bytes), (∀ b ∈ bytes, b < 256) →
      ∀ r ∈ decodeFramesAux fuel bytes, WFLogRecord r := by
  intro fuel
  induction fuel with
  | zero =>
    intro bytes hb r hr
    simp [decodeFramesAux] at hr
  | succ n ih =>
    intro bytes hb r hr
    rw [decodeFramesAux] at hr
    revert hr
    cases hf : readFrame bytes with
    | none => intro hr; simp at hr
    | some p =>
      obtain ⟨r0, rest⟩ := p
      intro hr
      obtain ⟨hwf0, hrest⟩ := readFrame_wf hb hf
      rcases List.mem_cons.mp hr with h | h
      · subst h; exact hwf0
      · exact ih rest hrest r h

theorem decodeFrames_wf {bytes : Bytes} (hb : ∀ b ∈ bytes, b < 256) :
    ∀ r ∈ decodeFrames bytes, WFLogRecord r :=
  decodeFramesAux_wf _ bytes hb

theorem readFrame_encodeLogRecord {r : LogRecord} (h : WFLogRecord r) (rest : Bytes) :
    readFrame (encodeLogRecord r ++ rest) = some (r, rest) := by
  obtain ⟨identifier, data, event_time, is_removed⟩ := r
  obtain ⟨hk, ht, hd⟩ := h
  cases is_removed with
  | true =>
    rw [if_pos rfl] at hd
    subst hd
    have he : encodeLogRecord ⟨identifier, none, event_time, true⟩ =
        record_removal identifier event_time := rfl
    rw [he]
    exact readFrame_record_removal identifier event_time rest hk ht
  | false =>
    rw [if_neg (by simp : ¬(false = true))] at hd
    obtain ⟨hne, hlen⟩ := hd
    cases data with
    | none => exact absurd rfl hne
    | some vb =>
      have he : encodeLogRecord ⟨identifier, some vb, event_time, false⟩ =
          record_insertion identifier vb event_time := rfl
      rw [he]
      exact readFrame_record_insertion identifier vb event_time rest hk
        (by simpa using hlen) ht

theorem decodeFrames_append_encoded (logs : List LogRecord)
    (h : ∀ r ∈ logs, WFLogRecord r) (tail : Bytes) :
    decodeFrames ((logs.map encodeLogRecord).flatten ++ tail) =
      logs ++ decodeFrames tail := by
  induction logs with
  | nil => simp
  | cons r rest ih =>
    simp only [List.map_cons, List.flatten_cons, List.append_assoc]
    rw [decodeFrames_cons_frame (readFrame_encodeLogRecord (h r (List.mem_cons_self r rest)))]
    rw [ih (fun x hx => h x (List.mem_cons_of_mem r hx))]
    rfl

theorem applyLog_toLogRecord (m : InMemoryTable) (op : StoreOp) :
    applyLog m (toLogRecord op) = applyOp m op := by
  cases op <;> rfl

theorem foldl_applyLog_map (ops : List StoreOp) (m : InMemoryTable) :
    (ops.map toLogRecord).foldl applyLog m = ops.foldl applyOp m := by
  induction ops generalizing m with
  | nil => rfl
  | cons op rest ih =>
    simp only [List.map_cons, List.foldl_cons, applyLog_toLogRecord]
    exact ih _

theorem recover_logs_wf (wal_files : List (Bytes × Bytes))
    (hbytes : ∀ f ∈ wal_files, ∀ b ∈ f.2, b < 256) :
    ∀ r ∈ ((sortWalFiles wal_files).map (fun f => decodeFrames f.2)).flatten,
      WFLogRecord r := by
  intro r hr
  rw [List.mem_flatten] at hr
  obtain ⟨l, hl, hrl⟩ := hr
  rw [List.mem_map] at hl
  obtain ⟨f, hf, rfl⟩ := hl
  have hfm : f ∈ wal_files := (List.mem_insertionSort _).mp hf
  exact decodeFrames_wf (hbytes f hfm) r hrl

/-- C3: construct a store over a directory, perform any operation sequence
(each frame appended to the active WAL and applied to the MemTable), drop it,
and construct a second store over the same directory.  The second store's
MemTable equals the first store's final MemTable record for record. -/
theorem replay_determinism (initial_files : List (Bytes × Bytes)) (ops : List StoreOp)
    (hbytes : ∀ f ∈ initial_files, ∀ b ∈ f.2, b < 256)
    (hops : ∀ op ∈ ops, wfOp op) (new_name : Bytes) :
    (recover_from_directory
        [(new_name,
          (recover_from_directory initial_files).2 ++ (ops.map encodeOp).flatten)]).1.records =
      (ops.foldl applyOp (recover_from_directory initial_files).1).records := by
  have hwf := recover_logs_wf initial_files hbytes
  have h2 : (recover_from_directory initial_files).2 =
      ((((sortWalFiles initial_files).map (fun f => decodeFrames f.2)).flatten).map
        encodeLogRecord).flatten := rfl
  have h1 : (recover_from_directory initial_files).1 =
      (((sortWalFiles initial_files).map (fun f => decodeFrames f.2)).flatten).foldl
        applyLog InMemoryTable.new := rfl
  rw [h1, h2]
  have hB : ∀ content : Bytes,
      (recover_from_directory [(new_name, content)]).1 =
        (decodeFrames content).foldl applyLog InMemoryTable.new := by
    intro content
    rw [recover_from_directory]
    dsimp only
    rw [show sortWalFiles [(new_name, content)] = [(new_name, content)] from rfl]
    rw [List.map_cons, List.map_nil, List.flatten_cons, List.flatten_nil, List.append_nil]
  rw [hB]
  rw [decodeFrames_append_encoded _ hwf, decodeFrames_encodeOps ops hops]
  rw [List.foldl_append, foldl_applyLog_map]

/-- Witness for C3: an empty initial directory and a single set operation. -/
theorem replay_determinism_spot :
    (recover_from_directory
        [([110],
          (recover_from_directory []).2 ++
            ([StoreOp.setOp [1] [2] 3].map encodeOp).flatten)]).1.records =
      ([StoreOp.setOp [1] [2] 3].foldl applyOp (recover_from_directory []).1).records :=
  replay_determinism [] [StoreOp.setOp [1] [2] 3] (by decide) (by decide) [110]

/-- The outcome of code that can panic (an unwrap/expect on its failing side). -/
inductive PanicOr (α : Type) where
  | panicked
  | ok (val : α)
deriving DecidableEq, Repr

/-- src/disk.rs: DiskEntry — the key/value/timestamp triple get returns. -/
structure DiskEntry where
  key : Bytes
  value : Bytes
  timestamp : Nat
deriving DecidableEq, Repr

/-- src/disk.rs: Disk::get — fetch from the MemTable; a found record's value
is cloned through mem_entry.value.as_ref().unwrap(), which panics when the
record is a tombstone (value absent). -/
def diskGet (mem_table : InMemoryTable) (key : Bytes) : PanicOr (Option DiskEntry) :=
  match mem_table.fetch key with
  | some mem_entry =>
    match mem_entry.value with
    | some v => .ok (some ⟨mem_entry.key, v, mem_entry.timestamp⟩)
    | none => .panicked
  | none => .ok none

/-- C1, evaluated at the failing input: after delete("k") on an empty store
the MemTable holds a tombstone for "k" ([107]), and Disk::get("k") panics on
unwrapping the absent value instead of reporting the key as absent. -/
theorem get_tombstone_panics :
    (applyOps [StoreOp.delOp [107] 1]).fetch [107] = some ⟨[107], none, 1, true⟩ ∧
      diskGet (applyOps [StoreOp.delOp [107] 1]) [107] = PanicOr.panicked := by
  constructor <;> rfl

/-- Result of one WAL write or flush call, as seen by the store. -/
inductive IoOutcome where
  | ok
  | ioError
deriving DecidableEq, Repr

/-- src/disk.rs: the state Disk routes writes through — the MemTable and the
bytes so far appended to the active WAL. -/
structure DiskState where
  mem_table : InMemoryTable
  wal_bytes : Bytes
deriving DecidableEq, Repr

/-- src/disk.rs: Disk::set — record_insertion (outcome append_result), then
flush (outcome flush_result); on either error return Err(0) without touching
the MemTable, otherwise apply the insert and return Ok(1). -/
def diskSet (d : DiskState) (key value : Bytes) (timestamp : Nat)
    (append_result flush_result : IoOutcome) : Except Nat Nat × DiskState :=
  match append_result with
  | .ioError => (.error 0, d)
  | .ok =>
    let d1 : DiskState := ⟨d.mem_table, d.wal_bytes ++ record_insertion key value timestamp⟩
    match flush_result with
    | .ioError => (.error 0, d1)
    | .ok => (.ok 1, ⟨d1.mem_table.insert key value timestamp, d1.wal_bytes⟩)

/-- src/disk.rs: Disk::delete — record_removal, then flush; same error
discipline as set. -/
def diskDelete (d : DiskState) (key : Bytes) (timestamp : Nat)
    (append_result flush_result : IoOutcome) : Except Nat Nat × DiskState :=
  match append_result with
  | .ioError => (.error 0, d)
  | .ok =>
    let d1 : DiskState := ⟨d.mem_table, d.wal_bytes ++ record_removal key timestamp⟩
    match flush_result with
    | .ioError => (.error 0, d1)
    | .ok => (.ok 1, ⟨d1.mem_table.remove key timestamp, d1.wal_bytes⟩)

/-- C2: if the WAL append or the flush of set(key, value) or delete(key)
fails with an I/O error, the operation returns the error and the MemTable is
left completely unchanged (hence also current_size is unchanged). -/
theorem write_error_mem_table_unchanged (d : DiskState) (key value : Bytes)
    (timestamp : Nat) (append_result flush_result : IoOutcome)
    (h : append_result = .ioError ∨ flush_result = .ioError) :
    ((diskSet d key value timestamp append_result flush_result).1 = .error 0 ∧
      (diskSet d key value timestamp append_result flush_result).2.mem_table =
        d.mem_table) ∧
    ((diskDelete d key timestamp append_result flush_result).1 = .error 0 ∧
      (diskDelete d key timestamp append_result flush_result).2.mem_table =
        d.mem_table) := by
  rcases h with h | h
  · subst h
    exact ⟨⟨rfl, rfl⟩, rfl, rfl⟩
  · subst h
    cases append_result with
    | ok => exact ⟨⟨rfl, rfl⟩, rfl, rfl⟩
    | ioError => exact ⟨⟨rfl, rfl⟩, rfl, rfl⟩

/-- Witness for C2: a flush failure on a concrete store. -/
theorem write_error_mem_table_unchanged_spot :
    ((diskSet ⟨InMemoryTable.new, []⟩ [1] [2] 3 IoOutcome.ok IoOutcome.ioError).1 =
        .error 0 ∧
      (diskSet ⟨InMemoryTable.new, []⟩ [1] [2] 3 IoOutcome.ok
          IoOutcome.ioError).2.mem_table = InMemoryTable.new) ∧
    ((diskDelete ⟨InMemoryTable.new, []⟩ [1] 3 IoOutcome.ok IoOutcome.ioError).1 =
        .error 0 ∧
      (diskDelete ⟨InMemoryTable.new, []⟩ [1] 3 IoOutcome.ok
          IoOutcome.ioError).2.mem_table = InMemoryTable.new) :=
  write_error_mem_table_unchanged ⟨InMemoryTable.new, []⟩ [1] [2] 3 .ok .ioError
    (Or.inr rfl)

/-- Does a file name carry the "wal" extension (Path::extension() == "wal"),
for names that contain a dot: the name ends in ".wal". -/
def hasWalExt (name : Bytes) : Bool :=
  name.drop (name.length - 4) == [46, 119, 97, 108]

/-- The per-path file deletions of the clean-up loop in
WAL::recover_from_directory (remove_file(wal_path) for each scanned path). -/
def removeFiles (dir : List (Bytes × Bytes)) (paths : List Bytes) :
    List (Bytes × Bytes) :=
  paths.foldl (fun d p => d.filter (fun g => g.1 != p)) dir

/-- The directory contents after WAL::recover_from_directory, computed step
by step from the source: scan the .wal files, create the fresh active log
named new_name (create_new; its content after replay and flush is the
re-emitted frame stream), then run the deletion loop over every scanned
path. -/
def recoverDirectoryState (dir : List (Bytes × Bytes)) (new_name : Bytes) :
    List (Bytes × Bytes) :=
  let wal_files := dir.filter (fun f => hasWalExt f.1)
  let after_create := dir ++ [(new_name, (recover_from_directory wal_files).2)]
  removeFiles after_create (wal_files.map (fun f => f.1))

/-- C8: with 100.wal = set("k","a",1) and 200.wal = set("k","b",2) pre-placed
(supplied here in reverse order to exercise the sort), recovery replays in
lexicographic filename order with unconditional overwrite, so get("k")
returns value "b" with timestamp 2; and after the fresh log 300.wal is
created and the deletion loop removes both scanned files, exactly one .wal
file remains in the directory. -/
theorem multi_log_merge :
    diskGet (recover_from_directory
        [([50, 48, 48, 46, 119, 97, 108], record_insertion [107] [98] 2),
         ([49, 48, 48, 46, 119, 97, 108], record_insertion [107] [97] 1)]).1 [107] =
      PanicOr.ok (some ⟨[107], [98], 2⟩) ∧
    ((recoverDirectoryState
        [([50, 48, 48, 46, 119, 97, 108], record_insertion [107] [98] 2),
         ([49, 48, 48, 46, 119, 97, 108], record_insertion [107] [97] 1)]
        [51, 48, 48, 46, 119, 97, 108]).filter (fun f => hasWalExt f.1)).length = 1 := by
  constructor
  · decide
  · decide

/-- One old .wal file during recovery: its name, whether the append-mode open
of WAL::open_existing succeeds, whether the read-mode open of
LogFileIterator::from_path (called from into_iter) succeeds, and its bytes. -/
structure WalFileEntry where
  name : Bytes
  append_openable : Bool
  read_openable : Bool
  content : Bytes
deriving DecidableEq, Repr

/-- The replay loop of WAL::recover_from_directory over the sorted old files:
a file whose append-mode open fails is skipped (the if-let Ok guard); a file
that append-opens but whose read open then fails makes into_iter panic via
expect("Failed to create log iterator").  Active-WAL writes and the final
file deletions are taken to succeed. -/
def replayFiles : List WalFileEntry → InMemoryTable → PanicOr InMemoryTable
  | [], m => .ok m
  | f :: rest, m =>
    if f.append_openable then
      if f.read_openable then
        replayFiles rest ((decodeFrames f.content).foldl applyLog m)
      else .panicked
    else replayFiles rest m

/-- Recovery over a directory whose files carry per-file open outcomes. -/
def recoverFallible (files : List WalFileEntry) : PanicOr InMemoryTable :=
  replayFiles (List.insertionSort (fun a b => a.name ≤ b.name) files) InMemoryTable.new

/-- Counterexample to C9 as stated: a single old log that cannot be opened
for READING — while still opening in append mode — makes recovery panic
inside into_iter rather than being skipped and recovery completing. -/
theorem replay_open_failure_panics :
    recoverFallible
        [⟨[49, 48, 48, 46, 119, 97, 108], true, false, record_insertion [1] [2] 3⟩] =
      PanicOr.panicked := rfl

theorem replayFiles_ok (files : List WalFileEntry) (m : InMemoryTable)
    (h : ∀ g ∈ files, g.append_openable = true → g.read_openable = true) :
    ∃ result : InMemoryTable, replayFiles files m = .ok result := by
  induction files generalizing m with
  | nil => exact ⟨m, rfl⟩
  | cons g rest ih =>
    cases hga : g.append_openable with
    | false =>
      simp only [replayFiles, hga]
      simp only [Bool.false_eq_true, if_false]
      exact ih m (fun x hx hax => h x (List.mem_cons_of_mem g hx) hax)
    | true =>
      have hgr := h g (List.mem_cons_self g rest) hga
      simp only [replayFiles, hga, hgr, if_true]
      exact ih _ (fun x hx hax => h x (List.mem_cons_of_mem g hx) hax)

/-- C9 amended: the skip guards the append-mode open, not the read: a file
whose append-mode open (WAL::open_existing) fails is skipped — its frames are
lost and the replay loop proceeds over the remaining files exactly as if the
file were absent — and replay completes normally provided every remaining
file that append-opens also read-opens. -/
theorem replay_skips_append_unopenable (pre post : List WalFileEntry)
    (f : WalFileEntry) (m : InMemoryTable)
    (hf : f.append_openable = false)
    (hrest : ∀ g ∈ pre ++ post, g.append_openable = true → g.read_openable = true) :
    replayFiles (pre ++ f :: post) m = replayFiles (pre ++ post) m ∧
      ∃ result : InMemoryTable, replayFiles (pre ++ post) m = .ok result := by
  refine ⟨?_, replayFiles_ok _ m hrest⟩
  induction pre generalizing m with
  | nil =>
    simp only [List.nil_append, replayFiles, hf]
    simp only [Bool.false_eq_true, if_false]
  | cons g pre ih =>
    have hg := hrest g (List.mem_cons_self g _)
    cases hga : g.append_openable with
    | false =>
      simp only [List.cons_append, replayFiles, hga]
      simp only [Bool.false_eq_true, if_false]
      exact ih m (fun x hx hax => hrest x (List.mem_cons_of_mem g hx) hax)
    | true =>
      have hgr := hg hga
      simp only [List.cons_append, replayFiles, hga, hgr, if_true]
      exact ih _ (fun x hx hax => hrest x (List.mem_cons_of_mem g hx) hax)

/-- Witness for the amended C9: one unopenable file between two healthy ones. -/
theorem replay_skips_append_unopenable_spot :
    replayFiles
        [⟨[49], true, true, record_insertion [1] [2] 3⟩,
         ⟨[50], false, true, record_insertion [4] [5] 6⟩,
         ⟨[51], true, true, record_removal [1] 9⟩] InMemoryTable.new =
      replayFiles
        [⟨[49], true, true, record_insertion [1] [2] 3⟩,
         ⟨[51], true, true, record_removal [1] 9⟩] InMemoryTable.new ∧
    ∃ result : InMemoryTable,
      replayFiles
        [⟨[49], true, true, record_insertion [1] [2] 3⟩,
         ⟨[51], true, true, record_removal [1] 9⟩] InMemoryTable.new = .ok result :=
  replay_skips_append_unopenable
    [⟨[49], true, true, record_insertion [1] [2] 3⟩]
    [⟨[51], true, true, record_removal [1] 9⟩]
    ⟨[50], false, true, record_insertion [4] [5] 6⟩ InMemoryTable.new rfl (by decide)

/-- One directory entry as produced by read_dir: its path and the result of
Path::extension() (none for a name without a dot, such as README, or for an
extensionless subdirectory). -/
structure DirEntry where
  path : Bytes
  ext : Option Bytes
deriving DecidableEq, Repr

/-- src/utils.rs: find_files_with_extension — collects, in directory order,
the paths whose extension equals ext.  It calls path.extension().unwrap() on
every entry, which panics at the first entry whose extension is absent. -/
def find_files_with_extension (entries : List DirEntry) (ext : Bytes) :
    PanicOr (List Bytes) :=
  match entries with
  | [] => .ok []
  | e :: rest =>
    match e.ext with
    | none => .panicked
    | some x =>
      match find_files_with_extension rest ext with
      | .panicked => .panicked
      | .ok files => .ok (if x = ext then e.path :: files else files)

/-- The directory scan Store construction runs first (Disk::new →
WAL::recover_from_directory → find_files_with_extension(dir, "wal")). -/
def storeConstructionScan (entries : List DirEntry) : PanicOr (List Bytes) :=
  find_files_with_extension entries [119, 97, 108]

theorem find_files_panics {entries : List DirEntry} {e : DirEntry}
    (he : e ∈ entries) (hext : e.ext = none) (ext : Bytes) :
    find_files_with_extension entries ext = .panicked := by
  induction entries with
  | nil => cases he
  | cons g rest ih =>
    rcases List.mem_cons.mp he with h | h
    · subst h
      simp only [find_files_with_extension, hext]
    · simp only [find_files_with_extension]
      cases hg : g.ext with
      | none => rfl
      | some x =>
        rw [ih h]

/-- C10: a directory containing any entry whose path has no extension makes
the Store-construction directory scan panic (neither an error return nor a
skip of the entry). -/
theorem store_construction_scan_panics (entries : List DirEntry) (e : DirEntry)
    (he : e ∈ entries) (hext : e.ext = none) :
    storeConstructionScan entries = PanicOr.panicked :=
  find_files_panics he hext _

/-- Witness for C10: a directory holding README (no extension) and a log. -/
theorem store_construction_scan_panics_spot :
    storeConstructionScan
        [⟨[49, 46, 119, 97, 108], some [119, 97, 108]⟩,
         ⟨[82, 69, 65, 68, 77, 69], none⟩] = PanicOr.panicked :=
  store_construction_scan_panics _ ⟨[82, 69, 65, 68, 77, 69], none⟩ (by decide) rfl

end FluxDB
